import Mathlib

/-!
# Tofu-Proxy: a verification development of `main.go`

A shallow embedding of the request-forwarding pipeline of `main.go`
(`handleRequest`, `proxyRequest`, `copyHeaders`, `sendProxyRequest`,
`rewriteURLPath`) together with the Go library functions it calls
(`path.Clean`, `strings.SplitN`, `strings.HasPrefix`, `http.Header`,
`http.Error`).

A Go string is a sequence of bytes.  It is embedded as a `List Char`, one
`Char` per byte; the code only ever compares a byte with the ASCII bytes
`/`, `.` and `?`.
-/

deriving instance DecidableEq for Except

namespace TofuProxy

/-- A Go `string`: a finite sequence of bytes, one `Char` per byte. -/
abbrev Str := List Char

/-! ## `path.Clean` (Go standard library, called by `rewriteURLPath`) -/

/-- The inner loop of the `..` case of `path.Clean`,
`for out.w > dotdot && out.index(out.w) != '/' { out.w-- }`:
starting from write index `w` it returns the index at which the loop stops.
`buf` is the buffer content before truncation. -/
def backtrack (buf : Str) (dotdot : Nat) : Nat → Nat
  | 0 => 0
  | w + 1 =>
    if w + 1 > dotdot ∧ buf.getD (w + 1) '/' ≠ '/' then backtrack buf dotdot w else w + 1

/-- The main loop `for r < n { switch { ... } }` of `path.Clean`.
`rest` is `path[r:]`, `out` is the written part `buf[:w]` of the output
buffer (so `out.w` is `out.length`), `dotdot` is the index where `..` must
stop.  Every iteration advances `r`, so `fuel = len(path)` iterations are
enough; the function returns the final buffer content. -/
def cleanLoop (rooted : Bool) : Nat → Str → Str → Nat → Str
  | 0, _, out, _ => out
  | _ + 1, [], out, _ => out
  | fuel + 1, c :: t, out, dotdot =>
    if c = '/' then
      -- empty path element
      cleanLoop rooted fuel t out dotdot
    else if c = '.' ∧ (t = [] ∨ t.head? = some '/') then
      -- . element
      cleanLoop rooted fuel t out dotdot
    else if c = '.' ∧ t.head? = some '.' ∧ (t.tail = [] ∨ t.tail.head? = some '/') then
      -- .. element: remove to last /
      if out.length > dotdot then
        cleanLoop rooted fuel t.tail (out.take (backtrack out dotdot (out.length - 1))) dotdot
      else if !rooted then
        let out1 := if out.length > 0 then out ++ ['/'] else out
        cleanLoop rooted fuel t.tail (out1 ++ ['.', '.']) (out1.length + 2)
      else
        cleanLoop rooted fuel t.tail out dotdot
    else
      -- real path element: add slash if needed, then copy the element
      let out1 :=
        if (rooted && out.length != 1) || (!rooted && out.length != 0) then out ++ ['/']
        else out
      cleanLoop rooted fuel (t.dropWhile (fun b => b != '/'))
        (out1 ++ c :: t.takeWhile (fun b => b != '/')) dotdot

/-- Go's `path.Clean`: the shortest path name equivalent to `path` by purely
lexical processing. -/
def Clean (path : Str) : Str :=
  if path = [] then ['.']
  else
    let rooted : Bool := path.head? = some '/'
    let out :=
      if rooted then cleanLoop true path.length path.tail ['/'] 1
      else cleanLoop false path.length path [] 0
    if out.length = 0 then ['.'] else out

/-! ## `strings.SplitN` and `strings.HasPrefix` -/

/-- Go's `strings.SplitN(s, "/", n)` for `n ≥ 0`: `s` is cut at the first
`n - 1` occurrences of `/`; the last part is the unsplit remainder. -/
def SplitN (s : Str) : Nat → List Str
  | 0 => []
  | 1 => [s]
  | n + 2 =>
    if '/' ∈ s then
      s.takeWhile (fun b => b != '/') :: SplitN ((s.dropWhile (fun b => b != '/')).tail) (n + 1)
    else [s]

/-- Go's `strings.HasPrefix(s, prefix)`. -/
def HasPrefix (s pre : Str) : Bool := pre.isPrefixOf s

/-! ## `rewriteURLPath` -/

/-- The function `rewriteURLPath` of `main.go`: clean the path, split it in
at most three parts on `/`, fail when there are fewer than three parts,
otherwise return `/` followed by the third part. -/
def rewriteURLPath (rawPath : Str) : Except Str Str :=
  let cleanedPath := Clean rawPath
  let pathParts := SplitN cleanedPath 3
  if pathParts.length < 3 then
    Except.error "invalid path format".toList
  else
    let newPath := '/' :: pathParts.getD 2 []
    Except.ok newPath

/-! ## `http.Header` -/

/-- Go's `http.Header`, a `map[string][]string`, as an association list from
keys to value lists.  A Go map holds every key once; the order of the
entries stands for the (unspecified) iteration order of the map. -/
abbrev Header := List (Str × List Str)

/-- The keys of a header map. -/
def Header.keys (h : Header) : List Str := h.map Prod.fst

/-- The map read `h[k]`: the value list stored under `k`, or the empty
(nil) slice when the key is absent. -/
def Header.values : Header → Str → List Str
  | [], _ => []
  | (k1, vs) :: h, k => if k1 = k then vs else Header.values h k

/-- The presence test `_, ok := h[k]`. -/
def Header.has : Header → Str → Bool
  | [], _ => false
  | (k1, _) :: h, k => if k1 = k then true else Header.has h k

/-- The builtin `delete(h, k)`. -/
def Header.delete : Header → Str → Header
  | [], _ => []
  | (k1, vs) :: h, k => if k1 = k then Header.delete h k else (k1, vs) :: Header.delete h k

/-- The map write `h[k] = append(h[k], v)`. -/
def Header.append : Header → Str → Str → Header
  | [], k, v => [(k, [v])]
  | (k1, vs) :: h, k, v =>
    if k1 = k then (k1, vs ++ [v]) :: h else (k1, vs) :: Header.append h k v

/-- `Header.Del(key)`: `delete(h, CanonicalMIMEHeaderKey(key))`.  The
library function `textproto.CanonicalMIMEHeaderKey` is the parameter
`canon`. -/
def Header.Del (canon : Str → Str) (h : Header) (key : Str) : Header :=
  Header.delete h (canon key)

/-- `Header.Add(key, value)`: append `value` under the canonical key. -/
def Header.Add (canon : Str → Str) (h : Header) (key value : Str) : Header :=
  Header.append h (canon key) value

/-- `Header.Set(key, value)`: `h[CanonicalMIMEHeaderKey(key)] = []string{value}`. -/
def Header.Set (canon : Str → Str) (h : Header) (key value : Str) : Header :=
  Header.delete h (canon key) ++ [(canon key, [value])]

/-- `Header.Get(key)`: the first value under the canonical key, or `""`. -/
def Header.Get (canon : Str → Str) (h : Header) (key : Str) : Str :=
  (Header.values h (canon key)).headD []

/-- The function `copyHeaders` of `main.go`: for every key of `src` and every
value under it, in order, `dest.Add(headerKey, headerValue)`. -/
def copyHeaders (canon : Str → Str) (src dest : Header) : Header :=
  src.foldl (fun d kv => kv.2.foldl (fun d1 v => Header.Add canon d1 kv.1 v) d) dest

/-! ## Requests, responses and the environment -/

/-- The fields of the inbound `*http.Request` that `main.go` reads. -/
structure Request where
  method : Str
  path : Str
  rawQuery : Str
  header : Header
  body : Str
  remoteAddr : Str
deriving DecidableEq

/-- The outbound request built by `http.NewRequest(r.Method, targetURL, r.Body)`
and completed by `copyHeaders`. -/
structure OutReq where
  method : Str
  url : Str
  header : Header
  body : Str
deriving DecidableEq

/-- The error result of one `Read`: `io.EOF` or any other error. -/
inductive ReadErr where
  | EOF
  | other (msg : Str)
deriving DecidableEq

/-- The result `(n, err)` of one `resp.Body.Read(buf)`: `data` is `buf[:n]`. -/
structure ReadResult where
  data : Str
  err : Option ReadErr
deriving DecidableEq

/-- An upstream `*http.Response`: status code, headers and the body as the
sequence of results its successive `Read` calls deliver. -/
structure Response where
  statusCode : Nat
  header : Header
  body : List ReadResult
deriving DecidableEq

/-- What `main.go` takes from outside: library functions and the world. -/
structure Env where
  /-- `textproto.CanonicalMIMEHeaderKey` -/
  canon : Str → Str
  /-- whether `http.NewRequest(method, url, body)` returns without error -/
  newRequestOk : Str → Str → Bool
  /-- the result of `os.ReadFile("index.html")` -/
  indexHtml : Except Str Str
  /-- the result of `client.Do(req)` -/
  upstream : OutReq → Except Str Response
  /-- whether the `i`-th `Write` to the client (counted from 0) succeeds -/
  writeOk : Nat → Bool
  /-- the flag `enableProxyAnySite` -/
  enableProxyAnySite : Bool

/-! ## `http.ResponseWriter` -/

/-- A call that reaches the client connection after the status line. -/
inductive Event where
  | write (data : Str) (ok : Bool)
  | flush
deriving DecidableEq

/-- The state of the `http.ResponseWriter` of one request: the mutable header
map `w.Header()`, the status code and headers committed by the first
`WriteHeader` (none before it), and the `Write` and `Flush` calls so far. -/
structure ResponseWriter where
  header : Header
  status : Option Nat
  sentHeader : Header
  events : List Event
deriving DecidableEq

/-- The writer a handler starts with. -/
def ResponseWriter.fresh : ResponseWriter := ⟨[], none, [], []⟩

/-- `w.WriteHeader(code)`: the first call commits status and headers, a later
call changes nothing. -/
def ResponseWriter.WriteHeader (w : ResponseWriter) (code : Nat) : ResponseWriter :=
  match w.status with
  | some _ => w
  | none => { w with status := some code, sentHeader := w.header }

/-- The number of `Write` calls made so far. -/
def writeCount : List Event → Nat
  | [] => 0
  | Event.write _ _ :: es => writeCount es + 1
  | Event.flush :: es => writeCount es

/-- `w.Write(data)`: sends status 200 first when no status was sent, then
hands `data` to the connection; the boolean is `err == nil`. -/
def ResponseWriter.Write (env : Env) (w : ResponseWriter) (data : Str) :
    ResponseWriter × Bool :=
  let w1 := w.WriteHeader 200
  let ok := env.writeOk (writeCount w1.events)
  ({ w1 with events := w1.events ++ [Event.write data ok] }, ok)

/-- `w.(http.Flusher).Flush()`. -/
def ResponseWriter.Flush (w : ResponseWriter) : ResponseWriter :=
  let w1 := w.WriteHeader 200
  { w1 with events := w1.events ++ [Event.flush] }

/-- The bytes that reached the client: the data of the successful writes. -/
def bodyWritten : List Event → Str
  | [] => []
  | Event.write data true :: es => data ++ bodyWritten es
  | _ :: es => bodyWritten es

/-- The data of every `Write` call, in order. -/
def writesOf : List Event → List Str
  | [] => []
  | Event.write data _ :: es => data :: writesOf es
  | Event.flush :: es => writesOf es

/-- Go's `http.Error(w, error, code)`: set the plain-text headers, call
`WriteHeader(code)` and write the message followed by a newline.  (Recent Go
releases also delete `Content-Length` and a few more keys from the header map
first; nothing below reads the header map after an error.) -/
def httpError (env : Env) (w : ResponseWriter) (msg : Str) (code : Nat) : ResponseWriter :=
  let h1 := Header.Set env.canon w.header "Content-Type".toList "text/plain; charset=utf-8".toList
  let h2 := Header.Set env.canon h1 "X-Content-Type-Options".toList "nosniff".toList
  let w1 := { w with header := h2 }
  let w2 := w1.WriteHeader code
  (w2.Write env (msg ++ ['\n'])).1

/-! ## `sendProxyRequest`, `proxyRequest`, `handleRequest` -/

/-- The relay loop `for { n, err := resp.Body.Read(buf) ... }` of
`sendProxyRequest`, run over the results of the successive reads.  When the
sequence is used up the body is at end of stream: `Read` returns
`(0, io.EOF)` and the loop returns. -/
def relayLoop (env : Env) : List ReadResult → ResponseWriter → ResponseWriter
  | [], w => w
  | rd :: rest, w =>
    if rd.err = some ReadErr.EOF ∨ rd.data.length = 0 then w
    else if rd.err ≠ none then
      httpError env w "Error reading response".toList 500
    else
      let wr := w.Write env rd.data
      if wr.2 = false then
        httpError env wr.1 "Error writing response".toList 500
      else relayLoop env rest wr.1.Flush

/-- The function `sendProxyRequest` of `main.go`. -/
def sendProxyRequest (env : Env) (w : ResponseWriter) (req : OutReq) : ResponseWriter :=
  match env.upstream req with
  | Except.error e => httpError env w e 500
  | Except.ok resp =>
    let w1 := { w with header := copyHeaders env.canon resp.header w.header }
    let w2 := w1.WriteHeader resp.statusCode
    relayLoop env resp.body w2

/-- What handling one request did: the final state of the response writer and
the upstream requests sent, in order. -/
structure Outcome where
  w : ResponseWriter
  sent : List OutReq
deriving DecidableEq

/-- The target URL built by `proxyRequest`: `target + rewrittenPath`, then
`"?" + r.URL.RawQuery` when the raw query is not empty. -/
def targetURL (target rewrittenPath rawQuery : Str) : Str :=
  let url := target ++ rewrittenPath
  if rawQuery ≠ [] then url ++ ('?' :: rawQuery) else url

/-- The header name `X-Forwarded-For`. -/
def xForwardedFor : Str := "X-Forwarded-For".toList

/-- The header name `X-Real-IP`. -/
def xRealIP : Str := "X-Real-IP".toList

/-- The header map of the outbound request: the sensitive headers are deleted
from the inbound map, which is then copied into the new request's empty map. -/
def outboundHeader (canon : Str → Str) (h : Header) : Header :=
  let h1 := Header.Del canon h xForwardedFor
  let h2 := Header.Del canon h1 xRealIP
  copyHeaders canon h2 []

/-- The function `proxyRequest` of `main.go` (log lines are not modelled). -/
def proxyRequest (env : Env) (w : ResponseWriter) (r : Request) (target : Str) : Outcome :=
  match rewriteURLPath r.path with
  | Except.error _ => ⟨httpError env w "Invalid request path".toList 400, []⟩
  | Except.ok rewrittenPath =>
    let url := targetURL target rewrittenPath r.rawQuery
    if env.newRequestOk r.method url = false then
      ⟨httpError env w "Error creating proxy request".toList 500, []⟩
    else
      let proxyReq : OutReq := ⟨r.method, url, outboundHeader env.canon r.header, r.body⟩
      ⟨sendProxyRequest env w proxyReq, [proxyReq]⟩

/-- The function `handleRequest` of `main.go`. -/
def handleRequest (env : Env) (w : ResponseWriter) (r : Request) : Outcome :=
  if r.path = ['/'] then
    match env.indexHtml with
    | Except.error _ => ⟨httpError env w "Internal Server Error".toList 500, []⟩
    | Except.ok content =>
      let w1 := { w with header := Header.Set env.canon w.header "Content-Type".toList "text/html".toList }
      ⟨(w1.Write env content).1, []⟩
  else if HasPrefix r.path ['/', 'o'] then
    proxyRequest env w r "https://api.openai.com".toList
  else if HasPrefix r.path ['/', 'c'] then
    proxyRequest env w r "https://api.cloudflare.com".toList
  else if HasPrefix r.path ['/', 'p'] then
    if env.enableProxyAnySite then
      let target := Header.Get env.canon r.header "X-Target-Host".toList
      if target = [] then
        ⟨httpError env w "Bad Request".toList 400, []⟩
      else
        proxyRequest env w r ("https://".toList ++ target)
    else
      ⟨httpError env w "The any site proxy function is disabled.".toList 403, []⟩
  else
    ⟨httpError env w "404 page not found".toList 404, []⟩

/-! ## Notions used in the statements -/

/-- A path element that `path.Clean` keeps: not empty, without a slash, and
neither `.` nor `..`. -/
def GoodSeg (s : Str) : Prop := s ≠ [] ∧ '/' ∉ s ∧ s ≠ ['.'] ∧ s ≠ ['.', '.']

instance (s : Str) : Decidable (GoodSeg s) := by
  unfold GoodSeg; infer_instance

/-- The segments joined by single slashes. -/
def joinSlash : List Str → Str
  | [] => []
  | [s] => s
  | s :: t :: ss => s ++ '/' :: joinSlash (t :: ss)

/-- The length that the loop of `path.Clean` can still reach on a rooted path:
what is written, what is left to read, and one more for the slash that the
next element will need when no slash is left to read before it. -/
def cleanPotential (out rest : Str) : Nat :=
  out.length + rest.length +
    (if rest = [] ∨ rest.head? = some '/' then 0 else if out.length = 1 then 0 else 1)

/-- A canonical form for the header keys of the examples: `X-Real-IP` becomes
`X-Real-Ip` as under `textproto.CanonicalMIMEHeaderKey`; the other keys of
the examples are canonical already. -/
def sampleCanon (k : Str) : Str :=
  if k = "X-Real-IP".toList then "X-Real-Ip".toList else k

/-- An environment for the examples: every outbound request is accepted, the
upstream answers 200 with the given sequence of body reads, every write to
the client succeeds, and `index.html` is missing. -/
def sampleEnv (body : List ReadResult) (anySite : Bool) : Env :=
  { canon := sampleCanon
    newRequestOk := fun _ _ => true
    indexHtml := Except.error "open index.html: no such file or directory".toList
    upstream := fun _ =>
      Except.ok ⟨200, [("Content-Type".toList, ["application/json".toList])], body⟩
    writeOk := fun _ => true
    enableProxyAnySite := anySite }

/-- The outbound request of the examples on the response relay. -/
def sampleOutReq : OutReq :=
  ⟨"GET".toList, "https://api.openai.com/v1/models".toList, [], []⟩

/-- An inbound `GET` request with the given path, raw query and headers. -/
def sampleRequest (path rawQuery : String) (header : Header) : Request :=
  ⟨"GET".toList, path.toList, rawQuery.toList, header, [], "203.0.113.7:4711".toList⟩

/-! ## Lemmas on splitting at a slash -/

theorem takeWhile_append_slash (a t : Str) (h : '/' ∉ a) :
    (a ++ '/' :: t).takeWhile (fun b => b != '/') = a := by
  induction a with
  | nil => simp
  | cons c a ih =>
    have hc : c ≠ '/' := fun e => h (by simp [e])
    have ha : '/' ∉ a := fun e => h (by simp [e])
    simp [List.takeWhile_cons, hc, ih ha]

theorem dropWhile_append_slash (a t : Str) (h : '/' ∉ a) :
    (a ++ '/' :: t).dropWhile (fun b => b != '/') = '/' :: t := by
  induction a with
  | nil => simp
  | cons c a ih =>
    have hc : c ≠ '/' := fun e => h (by simp [e])
    have ha : '/' ∉ a := fun e => h (by simp [e])
    simp [List.dropWhile_cons, hc, ih ha]

theorem takeWhile_no_slash (a : Str) (h : '/' ∉ a) :
    a.takeWhile (fun b => b != '/') = a := by
  induction a with
  | nil => simp
  | cons c a ih =>
    have hc : c ≠ '/' := fun e => h (by simp [e])
    have ha : '/' ∉ a := fun e => h (by simp [e])
    simp [List.takeWhile_cons, hc, ih ha]

theorem dropWhile_no_slash (a : Str) (h : '/' ∉ a) :
    a.dropWhile (fun b => b != '/') = [] := by
  induction a with
  | nil => simp
  | cons c a ih =>
    have hc : c ≠ '/' := fun e => h (by simp [e])
    have ha : '/' ∉ a := fun e => h (by simp [e])
    simp [List.dropWhile_cons, hc, ih ha]

theorem takeWhile_not_mem_slash (s : Str) : '/' ∉ s.takeWhile (fun b => b != '/') := by
  intro h
  have := List.mem_takeWhile_imp h
  simp at this

theorem dropWhile_boundary (s : Str) :
    s.dropWhile (fun b => b != '/') = [] ∨
      (s.dropWhile (fun b => b != '/')).head? = some '/' := by
  induction s with
  | nil => simp
  | cons c s ih =>
    by_cases hc : c = '/'
    · right; simp [List.dropWhile_cons, hc]
    · simpa [List.dropWhile_cons, hc] using ih

theorem split_at_slash (s : Str) (h : '/' ∈ s) :
    s = s.takeWhile (fun b => b != '/') ++ '/' :: (s.dropWhile (fun b => b != '/')).tail := by
  induction s with
  | nil => simp at h
  | cons c s ih =>
    by_cases hc : c = '/'
    · simp [List.takeWhile_cons, List.dropWhile_cons, hc]
    · have hs : '/' ∈ s := by
        rcases List.mem_cons.mp h with e | e
        · exact absurd e.symm hc
        · exact e
      have := ih hs
      simp only [List.takeWhile_cons, List.dropWhile_cons, bne_iff_ne, ne_eq, hc,
        not_false_eq_true, decide_True, ite_true, List.cons_append]
      exact congrArg (List.cons c) this

/-- Splitting `a/b/r` in three, when `a` and `b` hold no slash. -/
theorem SplitN_three (a b r : Str) (ha : '/' ∉ a) (hb : '/' ∉ b) :
    SplitN (a ++ '/' :: (b ++ '/' :: r)) 3 = [a, b, r] := by
  have h1 : '/' ∈ a ++ '/' :: (b ++ '/' :: r) := by simp
  have h2 : '/' ∈ b ++ '/' :: r := by simp
  simp only [SplitN, h1, h2, ite_true, takeWhile_append_slash _ _ ha,
    dropWhile_append_slash _ _ ha, takeWhile_append_slash _ _ hb,
    dropWhile_append_slash _ _ hb, List.tail_cons]

/-- Three parts come only from a string of the shape `a/b/r`. -/
theorem SplitN_three_inv (c : Str) (h : ¬ (SplitN c 3).length < 3) :
    ∃ a b r, c = a ++ '/' :: (b ++ '/' :: r) ∧ SplitN c 3 = [a, b, r] := by
  by_cases h1 : '/' ∈ c
  · by_cases h2 : '/' ∈ (c.dropWhile (fun b => b != '/')).tail
    · refine ⟨c.takeWhile (fun b => b != '/'),
        ((c.dropWhile (fun b => b != '/')).tail).takeWhile (fun b => b != '/'),
        (((c.dropWhile (fun b => b != '/')).tail).dropWhile (fun b => b != '/')).tail, ?_, ?_⟩
      · rw [← split_at_slash _ h2]
        exact split_at_slash _ h1
      · simp [SplitN, h1, h2]
    · exact absurd (by simp [SplitN, h1, h2]) h
  · exact absurd (by simp [SplitN, h1]) h

/-! ## Lemmas on `path.Clean` -/

/-- One iteration on a real path element followed by the end or a slash: the
element is copied, after a slash when the buffer asks for one. -/
theorem cleanLoop_elem (rooted : Bool) (fuel : Nat) (s tl out : Str) (dd : Nat)
    (hs : GoodSeg s) (htl : tl = [] ∨ tl.head? = some '/') :
    cleanLoop rooted (fuel + 1) (s ++ tl) out dd =
      cleanLoop rooted fuel tl
        ((if (rooted && out.length != 1) || (!rooted && out.length != 0) then out ++ ['/']
          else out) ++ s) dd := by
  obtain ⟨hne, hsl, hd1, hd2⟩ := hs
  cases s with
  | nil => exact absurd rfl hne
  | cons c t =>
    have hc : c ≠ '/' := fun e => hsl (by simp [e])
    have ht : '/' ∉ t := fun e => hsl (by simp [e])
    have htw : (t ++ tl).takeWhile (fun b => b != '/') = t := by
      rcases htl with e | e
      · subst e; simpa using takeWhile_no_slash t ht
      · cases tl with
        | nil => simpa using takeWhile_no_slash t ht
        | cons x tl =>
          simp at e; subst e
          exact takeWhile_append_slash t tl ht
    have hdw : (t ++ tl).dropWhile (fun b => b != '/') = tl := by
      rcases htl with e | e
      · subst e; simpa using dropWhile_no_slash t ht
      · cases tl with
        | nil => simpa using dropWhile_no_slash t ht
        | cons x tl =>
          simp at e; subst e
          exact dropWhile_append_slash t tl ht
    have c2 : ¬ (c = '.' ∧ (t ++ tl = [] ∨ (t ++ tl).head? = some '/')) := by
      rintro ⟨e, h⟩
      subst e
      cases t with
      | nil => exact hd1 rfl
      | cons y t =>
        rcases h with h | h
        · simp at h
        · simp at h; exact ht (by simp [h])
    have c3 : ¬ (c = '.' ∧ (t ++ tl).head? = some '.' ∧
        ((t ++ tl).tail = [] ∨ (t ++ tl).tail.head? = some '/')) := by
      rintro ⟨e, h1, h⟩
      subst e
      cases t with
      | nil =>
        rcases htl with e | e
        · subst e; simp at h1
        · simp only [List.nil_append] at h1; rw [e] at h1; simp at h1
      | cons y t =>
        simp at h1; subst h1
        cases t with
        | nil => exact hd2 rfl
        | cons z t =>
          rcases h with h | h
          · simp at h
          · simp at h; exact ht (by simp [h])
    rw [List.cons_append]
    simp only [cleanLoop, hc, c2, c3, if_false, htw, hdw]

/-- The loop on `/s1/s2/.../sn` with kept elements copies its input. -/
theorem cleanLoop_segs (segs : List Str) (hne : segs ≠ []) (hg : ∀ s ∈ segs, GoodSeg s) :
    ∀ (fuel : Nat) (out : Str) (dd : Nat), out.length ≠ 1 →
      (joinSlash segs).length + 1 ≤ fuel →
      cleanLoop true fuel ('/' :: joinSlash segs) out dd = out ++ '/' :: joinSlash segs := by
  induction segs with
  | nil => exact absurd rfl hne
  | cons s ss ih =>
    intro fuel out dd hout hfuel
    have hs : GoodSeg s := hg s (by simp)
    have hlen : 1 ≤ s.length := by
      rcases s with _ | ⟨c, t⟩
      · exact absurd rfl hs.1
      · simp
    cases ss with
    | nil =>
      simp only [joinSlash] at hfuel ⊢
      obtain ⟨f, rfl⟩ : ∃ f, fuel = f + 2 := ⟨fuel - 2, by omega⟩
      have h1 : cleanLoop true (f + 2) ('/' :: s) out dd = cleanLoop true (f + 1) s out dd := by
        simp [cleanLoop]
      have h2 := cleanLoop_elem true f s [] out dd hs (Or.inl rfl)
      rw [List.append_nil] at h2
      rw [h1, h2]
      cases f <;> simp [cleanLoop, hout]
    | cons t ss =>
      simp only [joinSlash] at hfuel ⊢
      simp only [List.length_append, List.length_cons] at hfuel
      obtain ⟨f, rfl⟩ : ∃ f, fuel = f + 2 := ⟨fuel - 2, by omega⟩
      have h1 : cleanLoop true (f + 2) ('/' :: (s ++ '/' :: joinSlash (t :: ss))) out dd =
          cleanLoop true (f + 1) (s ++ '/' :: joinSlash (t :: ss)) out dd := by
        simp [cleanLoop]
      have h2 := cleanLoop_elem true f s ('/' :: joinSlash (t :: ss)) out dd hs
        (Or.inr rfl)
      rw [h1, h2]
      have hout2 : ((if (true && out.length != 1) || (!true && out.length != 0) then
          out ++ ['/'] else out) ++ s).length ≠ 1 := by
        simp [hout]; omega
      rw [ih (by simp) (fun x hx => hg x (by simp [hx])) f _ dd hout2 (by omega)]
      simp [hout]

/-- A path `/x/s1/.../sn` whose elements are all kept is returned unchanged by
`path.Clean`. -/
theorem Clean_normal (x : Str) (segs : List Str) (hx : GoodSeg x) (hne : segs ≠ [])
    (hg : ∀ s ∈ segs, GoodSeg s) :
    Clean ('/' :: (x ++ '/' :: joinSlash segs)) = '/' :: (x ++ '/' :: joinSlash segs) := by
  have hlen : 1 ≤ x.length := by
    rcases x with _ | ⟨c, t⟩
    · exact absurd rfl hx.1
    · simp
  have h2 := cleanLoop_elem true (x ++ '/' :: joinSlash segs).length x
    ('/' :: joinSlash segs) ['/'] 1 hx (Or.inr rfl)
  have h3 := cleanLoop_segs segs hne hg (x ++ '/' :: joinSlash segs).length ('/' :: x) 1
    (by simp only [List.length_cons]; omega) (by simp only [List.length_append, List.length_cons]; omega)
  simp only [Clean, List.length_cons, List.tail_cons, List.head?_cons, decide_True, if_true]
  simp only [List.length_cons] at h2
  rw [h2]
  simp at h3 ⊢
  rw [h3]
  simp

/-- The fuel of the loop is never used up: with fuel for every byte left to
read, one more unit of fuel changes nothing. -/
theorem cleanLoop_fuel_enough (rooted : Bool) (fuel : Nat) :
    ∀ (rest out : Str) (dd : Nat), rest.length ≤ fuel →
      cleanLoop rooted (fuel + 1) rest out dd = cleanLoop rooted fuel rest out dd := by
  induction fuel with
  | zero =>
    intro rest out dd h
    have : rest = [] := List.length_eq_zero.mp (Nat.le_zero.mp h)
    subst this
    simp [cleanLoop]
  | succ fuel ih =>
    intro rest out dd h
    cases rest with
    | nil => simp [cleanLoop]
    | cons c t =>
      have ht : t.length ≤ fuel := by simpa using h
      have htt : t.tail.length ≤ fuel := by
        have := List.length_tail t
        omega
      have hdw : (t.dropWhile (fun b => b != '/')).length ≤ fuel :=
        le_trans (List.Sublist.length_le (List.dropWhile_sublist _)) ht
      rw [cleanLoop, cleanLoop]
      simp only [ih _ _ _ ht, ih _ _ _ htt, ih _ _ _ hdw]

/-- A rooted path with a single element cleans to a path with a single slash. -/
theorem Clean_single (s : Str) (hs : '/' ∉ s) :
    ∃ s1, '/' ∉ s1 ∧ Clean ('/' :: s) = '/' :: s1 := by
  by_cases h0 : s = []
  · subst h0
    exact ⟨[], by simp, by simp [Clean, cleanLoop]⟩
  by_cases h1 : s = ['.']
  · subst h1
    exact ⟨[], by simp, by simp [Clean, cleanLoop]⟩
  by_cases h2 : s = ['.', '.']
  · subst h2
    exact ⟨[], by simp, by simp [Clean, cleanLoop]⟩
  refine ⟨s, hs, ?_⟩
  have h := cleanLoop_elem true s.length s [] ['/'] 1 ⟨h0, hs, h1, h2⟩ (Or.inl rfl)
  rw [List.append_nil] at h
  simp only [Clean, List.length_cons, List.tail_cons, List.head?_cons, decide_True, if_true]
  rw [h]
  cases s.length <;> simp [cleanLoop]

theorem cleanPotential_ge (out rest : Str) : out.length ≤ cleanPotential out rest := by
  unfold cleanPotential; omega

theorem cleanPotential_boundary (out rest : Str) (h : rest = [] ∨ rest.head? = some '/') :
    cleanPotential out rest = out.length + rest.length := by
  simp [cleanPotential, h]

theorem cleanPotential_le (out rest : Str) :
    cleanPotential out rest ≤ out.length + rest.length + 1 := by
  unfold cleanPotential; split <;> [omega; (split <;> omega)]

/-- On a rooted path the loop never produces more than its potential. -/
theorem cleanLoop_length (fuel : Nat) : ∀ (rest out : Str) (dd : Nat),
    (cleanLoop true fuel rest out dd).length ≤ cleanPotential out rest := by
  induction fuel with
  | zero => intro rest out dd; simpa [cleanLoop] using cleanPotential_ge out rest
  | succ fuel ih =>
    intro rest out dd
    cases rest with
    | nil => simpa [cleanLoop] using cleanPotential_ge out []
    | cons c t =>
      simp only [cleanLoop]
      split
      · -- empty element
        rename_i hc
        subst hc
        refine le_trans (ih t out dd) ?_
        have := cleanPotential_le out t
        simp [cleanPotential] at this ⊢
        omega
      · rename_i hc
        split
        · -- . element
          rename_i h2
          refine le_trans (ih t out dd) ?_
          rw [cleanPotential_boundary out t h2.2]
          simp [cleanPotential]; omega
        · split
          · -- .. element
            rename_i h2 h3
            have htl : t.length = t.tail.length + 1 := by
              rcases t with _ | ⟨y, t⟩
              · simp at h3
              · simp
            have hb : ∀ o : Str, cleanPotential o t.tail = o.length + t.tail.length :=
              fun o => cleanPotential_boundary o t.tail h3.2.2
            have hbig : out.length + t.tail.length ≤ cleanPotential out (c :: t) := by
              simp [cleanPotential]; omega
            split
            · refine le_trans (ih _ _ dd) ?_
              rw [hb]
              have := List.length_take_le' (backtrack out dd (out.length - 1)) out
              omega
            · simp only [Bool.not_true, Bool.false_eq_true, if_false]
              refine le_trans (ih _ _ dd) ?_
              rw [hb]; exact hbig
          · -- real element
            rename_i h2 h3
            refine le_trans (ih _ _ dd) ?_
            rw [cleanPotential_boundary _ _ (dropWhile_boundary t)]
            have hsum : (t.takeWhile (fun b => b != '/')).length +
                (t.dropWhile (fun b => b != '/')).length = t.length := by
              rw [← List.length_append, List.takeWhile_append_dropWhile]
            have hnb : ¬ ((c :: t) = [] ∨ (c :: t).head? = some '/') := by
              simp [hc]
            simp only [cleanPotential, hnb, if_false, List.length_append, List.length_cons]
            by_cases h1 : out.length = 1
            · simp [h1]; omega
            · simp [h1]; omega

/-- The function `path.Clean` never lengthens a rooted path. -/
theorem Clean_length_rooted (t : Str) : (Clean ('/' :: t)).length ≤ t.length + 1 := by
  have h := cleanLoop_length (t.length + 1) t ['/'] 1
  have hp : cleanPotential ['/'] t ≤ t.length + 1 := by
    simp [cleanPotential]; omega
  simp only [Clean, List.length_cons, List.tail_cons, List.head?_cons, decide_True, if_true]
  split
  · simp
  · split
    · simp
    · omega

/-! ## The path rewriter -/

/-- The result of `rewriteURLPath` read off the cleaned path. -/
theorem rewriteURLPath_of_clean (p a b r : Str) (ha : '/' ∉ a) (hb : '/' ∉ b)
    (hc : Clean p = a ++ '/' :: (b ++ '/' :: r)) : rewriteURLPath p = Except.ok ('/' :: r) := by
  simp [rewriteURLPath, hc, SplitN_three a b r ha hb]

/-- A successful `rewriteURLPath` comes from a cleaned path `a/b/r`. -/
theorem rewriteURLPath_ok_inv (p q : Str) (h : rewriteURLPath p = Except.ok q) :
    ∃ a b r, Clean p = a ++ '/' :: (b ++ '/' :: r) ∧ q = '/' :: r := by
  unfold rewriteURLPath at h
  by_cases hl : (SplitN (Clean p) 3).length < 3
  · simp [hl] at h
  · obtain ⟨a, b, r, hc, hs⟩ := SplitN_three_inv (Clean p) hl
    refine ⟨a, b, r, hc, ?_⟩
    simp [hs] at h
    exact h.symm

/-- C1, as stated, fails: for the routing segment `x` and the remainder
`a/../b` the path `/x/a/../b` is rewritten to `/b`, not to `/a/../b`. -/
theorem C1_counterexample :
    ¬ (∀ x rest : Str, x ≠ [] → '/' ∉ x → rest ≠ [] →
        rewriteURLPath ('/' :: (x ++ '/' :: rest)) = Except.ok ('/' :: rest)) := by
  intro h
  have h1 := h "x".toList "a/../b".toList (by decide) (by decide) (by decide)
  have h2 : rewriteURLPath ('/' :: ("x".toList ++ '/' :: "a/../b".toList)) =
      Except.ok "/b".toList := by decide
  rw [h2] at h1
  exact absurd h1 (by decide)

/-- C1, amended: for every inbound path `p` whose cleaned form `path.Clean(p)`
is `"/" + x + "/" + rest`, with no slash in `x`, `rewriteURLPath` succeeds and
returns exactly `"/" + rest`: the first segment of the cleaned path is
discarded and its remainder is forwarded unchanged. -/
theorem C1_rewrite_discards_first_segment (p x rest : Str) (hx : '/' ∉ x)
    (hc : Clean p = '/' :: (x ++ '/' :: rest)) :
    rewriteURLPath p = Except.ok ('/' :: rest) :=
  rewriteURLPath_of_clean p [] x rest (by simp) hx hc

theorem C1_rewrite_discards_first_segment_witness :
    rewriteURLPath "/x/a/../b".toList = Except.ok "/b".toList ∧
    rewriteURLPath "/o/v1/models".toList = Except.ok "/v1/models".toList :=
  ⟨C1_rewrite_discards_first_segment "/x/a/../b".toList "x".toList "b".toList
      (by decide) (by decide),
   C1_rewrite_discards_first_segment "/o/v1/models".toList "o".toList "v1/models".toList
      (by decide) (by decide)⟩

/-- C5: for every path `"/" + s` where `s` holds no slash (`s` may be empty),
`rewriteURLPath` fails with the error `invalid path format` and returns no
rewritten path. -/
theorem C5_single_segment_fails (s : Str) (hs : '/' ∉ s) :
    rewriteURLPath ('/' :: s) = Except.error "invalid path format".toList := by
  obtain ⟨s1, h1, hc⟩ := Clean_single s hs
  simp [rewriteURLPath, hc, SplitN, h1]

theorem C5_single_segment_fails_witness :
    rewriteURLPath "/c".toList = Except.error "invalid path format".toList ∧
    rewriteURLPath "/".toList = Except.error "invalid path format".toList :=
  ⟨C5_single_segment_fails "c".toList (by decide), C5_single_segment_fails [] (by decide)⟩

/-- C8: whenever `rewriteURLPath` succeeds on a path `p` with result `q`, the
result `q` begins with a slash and differs from `p`. -/
theorem C8_rewritten_differs (p q : Str) (h : rewriteURLPath p = Except.ok q) :
    q.head? = some '/' ∧ q ≠ p := by
  obtain ⟨a, b, r, hc, hq⟩ := rewriteURLPath_ok_inv p q h
  subst hq
  refine ⟨rfl, ?_⟩
  intro e
  subst e
  have hlen := Clean_length_rooted r
  rw [hc] at hlen
  simp only [List.length_append, List.length_cons] at hlen
  omega

theorem C8_rewritten_differs_witness :
    rewriteURLPath "/o/v1/models".toList = Except.ok "/v1/models".toList ∧
    "/v1/models".toList.head? = some '/' ∧ "/v1/models".toList ≠ "/o/v1/models".toList :=
  ⟨by decide, C8_rewritten_differs "/o/v1/models".toList "/v1/models".toList (by decide)⟩

/-- C10: for every path `"/" + x + "/" + rest` in normalized form, where `x`
and every slash-separated segment of `rest` is non-empty and neither `.` nor
`..`, `rewriteURLPath` succeeds and returns exactly `"/" + rest`, every
further slash of `rest` kept. -/
theorem C10_normalized_path_rewrite (x : Str) (segs : List Str) (hx : GoodSeg x)
    (hne : segs ≠ []) (hg : ∀ s ∈ segs, GoodSeg s) :
    rewriteURLPath ('/' :: (x ++ '/' :: joinSlash segs)) =
      Except.ok ('/' :: joinSlash segs) :=
  rewriteURLPath_of_clean _ [] x (joinSlash segs) (by simp) hx.2.1
    (Clean_normal x segs hx hne hg)

theorem C10_normalized_path_rewrite_witness :
    rewriteURLPath "/o/v1/chat/completions".toList = Except.ok "/v1/chat/completions".toList :=
  C10_normalized_path_rewrite "o".toList ["v1".toList, "chat".toList, "completions".toList]
    (by decide) (by decide) (by decide)

/-! ## The header relay -/

theorem values_eq_nil_of_has_false (h : Header) (k : Str) (hk : Header.has h k = false) :
    Header.values h k = [] := by
  induction h with
  | nil => rfl
  | cons e h ih =>
    obtain ⟨k1, vs⟩ := e
    by_cases e1 : k1 = k
    · simp [Header.has, e1] at hk
    · simp only [Header.has, e1, if_false] at hk
      simp [Header.values, e1, ih hk]

theorem has_iff_mem_keys (h : Header) (k : Str) :
    Header.has h k = true ↔ k ∈ Header.keys h := by
  induction h with
  | nil => simp [Header.has, Header.keys]
  | cons e h ih =>
    obtain ⟨k1, vs⟩ := e
    by_cases e1 : k1 = k
    · simp [Header.has, Header.keys, e1]
    · have e2 : ¬ k = k1 := fun e => e1 e.symm
      simp only [Header.has, e1, if_false, ih]
      simp [Header.keys, e2]

theorem values_delete (h : Header) (k k2 : Str) :
    Header.values (Header.delete h k) k2 = if k = k2 then [] else Header.values h k2 := by
  induction h with
  | nil => simp [Header.delete, Header.values]
  | cons e h ih =>
    obtain ⟨k1, vs⟩ := e
    by_cases e1 : k1 = k
    · subst e1
      by_cases e2 : k1 = k2
      · subst e2; simpa [Header.delete] using ih
      · simpa [Header.delete, Header.values, Header.has, e2] using ih
    · by_cases e2 : k = k2
      · subst e2
        simp [Header.delete, Header.values, e1, ih]
      · simp only [Header.delete, e1, if_false, Header.values, ih, e2]

theorem has_delete (h : Header) (k k2 : Str) :
    Header.has (Header.delete h k) k2 = (decide (k ≠ k2) && Header.has h k2) := by
  induction h with
  | nil => simp [Header.delete, Header.has]
  | cons e h ih =>
    obtain ⟨k1, vs⟩ := e
    by_cases e1 : k1 = k
    · subst e1
      by_cases e2 : k1 = k2
      · subst e2; simpa [Header.delete] using ih
      · simpa [Header.delete, Header.values, Header.has, e2] using ih
    · by_cases e2 : k1 = k2
      · subst e2
        have e3 : ¬ k = k1 := fun e => e1 e.symm
        simp [Header.delete, Header.has, e1, e3]
      · simp only [Header.delete, e1, if_false, Header.has, e2, ih]

theorem keys_delete_subset (h : Header) (k k2 : Str)
    (hk : k2 ∈ Header.keys (Header.delete h k)) : k2 ∈ Header.keys h := by
  rw [← has_iff_mem_keys] at hk ⊢
  rw [has_delete] at hk
  simp at hk
  exact hk.2

theorem nodup_keys_delete (h : Header) (k : Str) (hn : (Header.keys h).Nodup) :
    (Header.keys (Header.delete h k)).Nodup := by
  induction h with
  | nil => simp [Header.delete, Header.keys]
  | cons e h ih =>
    obtain ⟨k1, vs⟩ := e
    simp only [Header.keys, List.map_cons, List.nodup_cons] at hn
    by_cases e1 : k1 = k
    · simp only [Header.delete, e1, if_true]
      exact ih hn.2
    · simp only [Header.delete, e1, if_false, Header.keys, List.map_cons, List.nodup_cons]
      exact ⟨fun hm => hn.1 (keys_delete_subset h k k1 hm), ih hn.2⟩

theorem values_append (h : Header) (k v k2 : Str) :
    Header.values (Header.append h k v) k2 =
      if k = k2 then Header.values h k2 ++ [v] else Header.values h k2 := by
  induction h with
  | nil =>
    by_cases e : k = k2 <;> simp [Header.append, Header.values, e]
  | cons e h ih =>
    obtain ⟨k1, vs⟩ := e
    by_cases e1 : k1 = k
    · subst e1
      by_cases e2 : k1 = k2 <;> simp [Header.append, Header.values, e2]
    · by_cases e2 : k1 = k2
      · subst e2
        have e3 : ¬ k = k1 := fun e => e1 e.symm
        simp [Header.append, Header.values, e1, e3]
      · simp only [Header.append, e1, if_false, Header.values, e2, ih]

theorem has_append (h : Header) (k v k2 : Str) :
    Header.has (Header.append h k v) k2 = (decide (k = k2) || Header.has h k2) := by
  induction h with
  | nil =>
    by_cases e : k = k2 <;> simp [Header.append, Header.has, e]
  | cons e h ih =>
    obtain ⟨k1, vs⟩ := e
    by_cases e1 : k1 = k
    · subst e1
      by_cases e2 : k1 = k2 <;> simp [Header.append, Header.has, e2]
    · by_cases e2 : k1 = k2
      · subst e2
        simp [Header.append, Header.has, e1]
      · simp only [Header.append, e1, if_false, Header.has, e2, ih]

/-- Adding all values of one key. -/
theorem values_addAll (canon : Str → Str) (k : Str) (vs : List Str) :
    ∀ (d : Header) (k2 : Str),
      Header.values (vs.foldl (fun d1 v => Header.Add canon d1 k v) d) k2 =
        if canon k = k2 then Header.values d k2 ++ vs else Header.values d k2 := by
  induction vs with
  | nil => intro d k2; simp
  | cons v vs ih =>
    intro d k2
    rw [List.foldl_cons, ih]
    by_cases e : canon k = k2 <;> simp [e, Header.Add, values_append]

theorem has_addAll (canon : Str → Str) (k : Str) (vs : List Str) :
    ∀ (d : Header) (k2 : Str),
      Header.has (vs.foldl (fun d1 v => Header.Add canon d1 k v) d) k2 =
        ((decide (canon k = k2) && decide (vs ≠ [])) || Header.has d k2) := by
  induction vs with
  | nil => intro d k2; simp
  | cons v vs ih =>
    intro d k2
    rw [List.foldl_cons, ih]
    by_cases e : canon k = k2 <;> by_cases e2 : vs = [] <;> simp [e, e2, Header.Add, has_append]

/-- The values under each key after `copyHeaders`, for a source map with
canonical keys: the destination's values followed by the source's. -/
theorem values_copyHeaders (canon : Str → Str) (src : Header)
    (hc : ∀ k ∈ Header.keys src, canon k = k) (hn : (Header.keys src).Nodup) :
    ∀ (d : Header) (k2 : Str),
      Header.values (copyHeaders canon src d) k2 = Header.values d k2 ++ Header.values src k2 := by
  induction src with
  | nil => intro d k2; simp [copyHeaders, Header.values]
  | cons e src ih =>
    obtain ⟨k1, vs⟩ := e
    intro d k2
    simp only [Header.keys, List.map_cons, List.nodup_cons] at hn
    have hc1 : canon k1 = k1 := hc k1 (by simp [Header.keys])
    have ih1 := ih (fun k hk => hc k (by simp [Header.keys] at hk ⊢; exact Or.inr hk)) hn.2
    have hstep : copyHeaders canon ((k1, vs) :: src) d =
        copyHeaders canon src (vs.foldl (fun d1 v => Header.Add canon d1 k1 v) d) := rfl
    rw [hstep, ih1, values_addAll, hc1]
    by_cases e1 : k1 = k2
    · subst e1
      have : Header.values src k1 = [] := by
        apply values_eq_nil_of_has_false
        cases hh : Header.has src k1
        · rfl
        · exact absurd ((has_iff_mem_keys src k1).mp hh) hn.1
      simp [Header.values, this]
    · simp [Header.values, e1]

/-- The keys after `copyHeaders`, for a source map with canonical keys: the
destination's keys and the source keys that carry a value. -/
theorem has_copyHeaders (canon : Str → Str) (src : Header)
    (hc : ∀ k ∈ Header.keys src, canon k = k) (hn : (Header.keys src).Nodup) :
    ∀ (d : Header) (k2 : Str),
      Header.has (copyHeaders canon src d) k2 =
        (Header.has d k2 || decide (Header.values src k2 ≠ [])) := by
  induction src with
  | nil => intro d k2; simp [copyHeaders, Header.values]
  | cons e src ih =>
    obtain ⟨k1, vs⟩ := e
    intro d k2
    simp only [Header.keys, List.map_cons, List.nodup_cons] at hn
    have hc1 : canon k1 = k1 := hc k1 (by simp [Header.keys])
    have ih1 := ih (fun k hk => hc k (by simp [Header.keys] at hk ⊢; exact Or.inr hk)) hn.2
    have hstep : copyHeaders canon ((k1, vs) :: src) d =
        copyHeaders canon src (vs.foldl (fun d1 v => Header.Add canon d1 k1 v) d) := rfl
    rw [hstep, ih1, has_addAll, hc1]
    by_cases e1 : k1 = k2
    · subst e1
      have : Header.values src k1 = [] := by
        apply values_eq_nil_of_has_false
        cases hh : Header.has src k1
        · rfl
        · exact absurd ((has_iff_mem_keys src k1).mp hh) hn.1
      by_cases e2 : vs = [] <;> simp [Header.values, this, e2]
    · simp [Header.values, e1]

/-- The outbound request of `proxyRequest`, when one is sent. -/
theorem proxyRequest_sent (env : Env) (w : ResponseWriter) (r : Request) (target : Str)
    (o : OutReq) (ho : o ∈ (proxyRequest env w r target).sent) :
    ∃ q, rewriteURLPath r.path = Except.ok q ∧
      o = ⟨r.method, targetURL target q r.rawQuery, outboundHeader env.canon r.header, r.body⟩ := by
  unfold proxyRequest at ho
  cases hq : rewriteURLPath r.path with
  | error e => simp [hq] at ho
  | ok q =>
    simp only [hq] at ho
    cases hn : env.newRequestOk r.method (targetURL target q r.rawQuery)
    · simp [hn] at ho
    · simp only [hn, Bool.true_eq_false, if_false, List.mem_singleton] at ho
      exact ⟨q, rfl, ho⟩

/-- The values of the outbound header map under every key. -/
theorem values_outboundHeader (canon : Str → Str) (h : Header)
    (hc : ∀ k ∈ Header.keys h, canon k = k) (hn : (Header.keys h).Nodup) (k : Str) :
    Header.values (outboundHeader canon h) k =
      if k = canon xForwardedFor ∨ k = canon xRealIP then []
      else Header.values h k := by
  unfold outboundHeader Header.Del
  rw [values_copyHeaders canon _
    (fun k hk => hc k (keys_delete_subset _ _ _ (keys_delete_subset _ _ _ hk)))
    (nodup_keys_delete _ _ (nodup_keys_delete _ _ hn))]
  simp only [Header.values, List.nil_append, values_delete]
  by_cases e1 : canon xRealIP = k
  · simp [e1]
  · by_cases e2 : canon xForwardedFor = k
    · simp [e2]
    · have e3 : ¬ k = canon xRealIP := fun e => e1 e.symm
      have e4 : ¬ k = canon xForwardedFor := fun e => e2 e.symm
      simp [e1, e2, e3, e4]

/-- The keys of the outbound header map. -/
theorem has_outboundHeader (canon : Str → Str) (h : Header)
    (hc : ∀ k ∈ Header.keys h, canon k = k) (hn : (Header.keys h).Nodup) (k : Str) :
    Header.has (outboundHeader canon h) k = true ↔
      (k ≠ canon xForwardedFor ∧ k ≠ canon xRealIP ∧
        Header.values h k ≠ []) := by
  unfold outboundHeader Header.Del
  rw [has_copyHeaders canon _
    (fun k hk => hc k (keys_delete_subset _ _ _ (keys_delete_subset _ _ _ hk)))
    (nodup_keys_delete _ _ (nodup_keys_delete _ _ hn))]
  simp only [Header.has, Bool.false_or, values_delete, decide_eq_true_eq]
  by_cases e1 : canon xRealIP = k
  · simp [e1]
  · by_cases e2 : canon xForwardedFor = k
    · simp [e2]
    · have e3 : ¬ k = canon xRealIP := fun e => e1 e.symm
      have e4 : ¬ k = canon xForwardedFor := fun e => e2 e.symm
      simp [e1, e2, e3, e4]

/-- C2: for every inbound header map with canonical keys (each key once, as in
a Go map), the headers of the outbound request built by `proxyRequest` hold no
value under `X-Forwarded-For` and none under `X-Real-IP`, whether looked up by
`Get` or read from the map, and under every other key they hold exactly the
inbound list of values in the same order; no key is added, and no key that
carries a value is lost. -/
theorem C2_outbound_headers (env : Env) (w : ResponseWriter) (r : Request) (target : Str)
    (o : OutReq)
    (hc : ∀ k ∈ Header.keys r.header, env.canon k = k)
    (hn : (Header.keys r.header).Nodup)
    (ho : o ∈ (proxyRequest env w r target).sent) :
    Header.Get env.canon o.header xForwardedFor = [] ∧
    Header.Get env.canon o.header xRealIP = [] ∧
    Header.values o.header (env.canon xForwardedFor) = [] ∧
    Header.values o.header (env.canon xRealIP) = [] ∧
    Header.values o.header xForwardedFor = [] ∧
    Header.values o.header xRealIP = [] ∧
    (∀ k, k ≠ env.canon xForwardedFor → k ≠ env.canon xRealIP →
      Header.values o.header k = Header.values r.header k) ∧
    (∀ k, Header.has o.header k = true →
      Header.has r.header k = true ∧ k ≠ env.canon xForwardedFor ∧
        k ≠ env.canon xRealIP) ∧
    (∀ k, Header.values r.header k ≠ [] → k ≠ env.canon xForwardedFor →
      k ≠ env.canon xRealIP → Header.has o.header k = true) := by
  obtain ⟨q, -, rfl⟩ := proxyRequest_sent env w r target o ho
  have hv := values_outboundHeader env.canon r.header hc hn
  have hh := has_outboundHeader env.canon r.header hc hn
  have hhas : ∀ k, Header.values r.header k ≠ [] → Header.has r.header k = true := by
    intro k hk
    cases hb : Header.has r.header k
    · exact absurd (values_eq_nil_of_has_false _ _ hb) hk
    · rfl
  have hraw : ∀ k0 : Str, Header.values (outboundHeader env.canon r.header) (env.canon k0) = [] →
      Header.values (outboundHeader env.canon r.header) k0 = [] := by
    intro k0 h0
    by_cases e : env.canon k0 = k0
    · rw [e] at h0; exact h0
    · apply values_eq_nil_of_has_false
      cases hb : Header.has (outboundHeader env.canon r.header) k0
      · rfl
      · have h1 := hhas k0 ((hh k0).mp hb).2.2
        exact absurd (hc k0 ((has_iff_mem_keys _ _).mp h1)) e
  have hf : Header.values (outboundHeader env.canon r.header)
      (env.canon xForwardedFor) = [] := by rw [hv]; simp
  have hr : Header.values (outboundHeader env.canon r.header)
      (env.canon xRealIP) = [] := by rw [hv]; simp
  refine ⟨by simp only [Header.Get, hf]; rfl, by simp only [Header.Get, hr]; rfl, hf, hr, hraw _ hf, hraw _ hr,
    ?_, ?_, ?_⟩
  · intro k h1 h2
    show Header.values (outboundHeader env.canon r.header) k = _
    rw [hv]; simp [h1, h2]
  · intro k hk
    have := (hh k).mp hk
    exact ⟨hhas k this.2.2, this.1, this.2.1⟩
  · intro k h0 h1 h2
    exact (hh k).mpr ⟨h1, h2, h0⟩

theorem C2_outbound_headers_witness :
    (sampleRequest "/o/v1/models" "limit=5"
        [("X-Forwarded-For".toList, ["198.51.100.1".toList, "10.0.0.1".toList]),
         ("Accept".toList, ["text/html".toList, "application/json".toList]),
         ("X-Real-Ip".toList, ["198.51.100.1".toList]),
         ("Authorization".toList, ["Bearer t".toList])]).header.keys.Nodup ∧
    Header.values (outboundHeader sampleCanon
        [("X-Forwarded-For".toList, ["198.51.100.1".toList, "10.0.0.1".toList]),
         ("Accept".toList, ["text/html".toList, "application/json".toList]),
         ("X-Real-Ip".toList, ["198.51.100.1".toList]),
         ("Authorization".toList, ["Bearer t".toList])]) "X-Real-Ip".toList = [] ∧
    outboundHeader sampleCanon
        [("X-Forwarded-For".toList, ["198.51.100.1".toList, "10.0.0.1".toList]),
         ("Accept".toList, ["text/html".toList, "application/json".toList]),
         ("X-Real-Ip".toList, ["198.51.100.1".toList]),
         ("Authorization".toList, ["Bearer t".toList])] =
      [("Accept".toList, ["text/html".toList, "application/json".toList]),
       ("Authorization".toList, ["Bearer t".toList])] :=
  ⟨by decide,
   (C2_outbound_headers (sampleEnv [] false) ResponseWriter.fresh
      (sampleRequest "/o/v1/models" "limit=5"
        [("X-Forwarded-For".toList, ["198.51.100.1".toList, "10.0.0.1".toList]),
         ("Accept".toList, ["text/html".toList, "application/json".toList]),
         ("X-Real-Ip".toList, ["198.51.100.1".toList]),
         ("Authorization".toList, ["Bearer t".toList])])
      "https://api.openai.com".toList
      ⟨"GET".toList, "https://api.openai.com/v1/models?limit=5".toList,
        outboundHeader sampleCanon
          [("X-Forwarded-For".toList, ["198.51.100.1".toList, "10.0.0.1".toList]),
           ("Accept".toList, ["text/html".toList, "application/json".toList]),
           ("X-Real-Ip".toList, ["198.51.100.1".toList]),
           ("Authorization".toList, ["Bearer t".toList])], []⟩
      (by decide) (by decide) (by decide)).2.2.2.1,
   by decide⟩

/-! ## The route selector and the target URL -/

theorem httpError_status_fresh (env : Env) (msg : Str) (code : Nat) :
    (httpError env ResponseWriter.fresh msg code).status = some code := rfl

theorem httpError_writes_fresh (env : Env) (msg : Str) (code : Nat) :
    writesOf (httpError env ResponseWriter.fresh msg code).events = [msg ++ ['\n']] := rfl

theorem hasPrefix_two (p : Str) (a b : Char) :
    HasPrefix p [a, b] = true ↔ ∃ t, p = a :: b :: t := by
  unfold HasPrefix
  rcases p with _ | ⟨x, _ | ⟨y, t⟩⟩ <;> simp [List.isPrefixOf]
  constructor
  · rintro ⟨rfl, rfl⟩; exact ⟨rfl, rfl⟩
  · rintro ⟨rfl, rfl⟩; exact ⟨rfl, rfl⟩

/-- C4: with the any-site feature disabled, every request whose path begins
with `/p` is answered 403 Forbidden with the fixed message, whatever its
headers, and no upstream request is sent; none of the earlier rules (`/`,
`/o`, `/c`) matches such a path. -/
theorem C4_any_site_disabled_forbidden (env : Env) (r : Request)
    (hflag : env.enableProxyAnySite = false) (hp : HasPrefix r.path ['/', 'p'] = true) :
    (handleRequest env ResponseWriter.fresh r).w.status = some 403 ∧
    (handleRequest env ResponseWriter.fresh r).sent = [] ∧
    writesOf (handleRequest env ResponseWriter.fresh r).w.events =
      ["The any site proxy function is disabled.\n".toList] ∧
    r.path ≠ ['/'] ∧ HasPrefix r.path ['/', 'o'] = false ∧ HasPrefix r.path ['/', 'c'] = false := by
  obtain ⟨t, ht⟩ := (hasPrefix_two r.path '/' 'p').mp hp
  have h1 : r.path ≠ ['/'] := by rw [ht]; simp
  have h2 : HasPrefix r.path ['/', 'o'] = false := by
    rw [ht]; simp [HasPrefix, List.isPrefixOf]
  have h3 : HasPrefix r.path ['/', 'c'] = false := by
    rw [ht]; simp [HasPrefix, List.isPrefixOf]
  have hres : handleRequest env ResponseWriter.fresh r =
      ⟨httpError env ResponseWriter.fresh "The any site proxy function is disabled.".toList 403,
        []⟩ := by
    unfold handleRequest
    rw [if_neg h1, h2, h3, hp, hflag]
    rfl
  rw [hres]
  exact ⟨rfl, rfl, rfl, h1, h2, h3⟩

theorem C4_any_site_disabled_forbidden_witness :
    (handleRequest (sampleEnv [] false) ResponseWriter.fresh
      (sampleRequest "/p/foo" "" [("X-Target-Host".toList, ["example.com".toList])])).w.status
        = some 403 ∧
    (handleRequest (sampleEnv [] false) ResponseWriter.fresh
      (sampleRequest "/p/foo" "" [("X-Target-Host".toList, ["example.com".toList])])).sent
        = [] :=
  ⟨(C4_any_site_disabled_forbidden (sampleEnv [] false)
      (sampleRequest "/p/foo" "" [("X-Target-Host".toList, ["example.com".toList])])
      (by decide) (by decide)).1,
   by decide⟩

/-- The origin that `handleRequest` hands to `proxyRequest`, when it proxies. -/
theorem handleRequest_sent (env : Env) (w : ResponseWriter) (r : Request) (o : OutReq)
    (ho : o ∈ (handleRequest env w r).sent) :
    ∃ origin, o ∈ (proxyRequest env w r origin).sent ∧
      (HasPrefix r.path ['/', 'o'] = true ∨ HasPrefix r.path ['/', 'c'] = true ∨
        HasPrefix r.path ['/', 'p'] = true) ∧
      (HasPrefix r.path ['/', 'o'] = true → origin = "https://api.openai.com".toList) ∧
      (HasPrefix r.path ['/', 'c'] = true → origin = "https://api.cloudflare.com".toList) ∧
      (HasPrefix r.path ['/', 'p'] = true →
        env.enableProxyAnySite = true ∧
        Header.Get env.canon r.header "X-Target-Host".toList ≠ [] ∧
        origin = "https://".toList ++ Header.Get env.canon r.header "X-Target-Host".toList) := by
  have excl : ∀ (a b : Char), a ≠ b → HasPrefix r.path ['/', a] = true →
      HasPrefix r.path ['/', b] = true → False := by
    intro a b hab h1 h2
    obtain ⟨t, ht⟩ := (hasPrefix_two r.path '/' a).mp h1
    obtain ⟨t2, ht2⟩ := (hasPrefix_two r.path '/' b).mp h2
    rw [ht] at ht2
    simp at ht2
    exact hab ht2.1
  unfold handleRequest at ho
  by_cases h0 : r.path = ['/']
  · rw [if_pos h0] at ho
    cases hi : env.indexHtml <;> simp [hi] at ho
  rw [if_neg h0] at ho
  cases ho1 : HasPrefix r.path ['/', 'o']
  · rw [ho1] at ho
    cases hc1 : HasPrefix r.path ['/', 'c']
    · rw [hc1] at ho
      cases hp1 : HasPrefix r.path ['/', 'p']
      · rw [hp1] at ho
        simp at ho
      · rw [hp1] at ho
        cases hf : env.enableProxyAnySite
        · rw [hf] at ho
          simp at ho
        · rw [hf] at ho
          simp only [if_true] at ho
          by_cases ht : Header.Get env.canon r.header "X-Target-Host".toList = []
          · rw [if_pos ht] at ho
            simp at ho
          · rw [if_neg ht] at ho
            exact ⟨_, ho, Or.inr (Or.inr rfl), by simp, by simp, fun _ => ⟨rfl, ht, rfl⟩⟩
    · rw [hc1] at ho
      simp only [if_true, Bool.false_eq_true, if_false] at ho
      refine ⟨_, ho, Or.inr (Or.inl rfl), by simp, fun _ => rfl, fun hp1 => ?_⟩
      exact absurd (excl 'c' 'p' (by decide) hc1 hp1) id
  · rw [ho1] at ho
    simp only [if_true] at ho
    refine ⟨_, ho, Or.inl rfl, fun _ => rfl, fun hc1 => ?_, fun hp1 => ?_⟩
    · exact absurd (excl 'o' 'c' (by decide) ho1 hc1) id
    · exact absurd (excl 'o' 'p' (by decide) ho1 hp1) id

/-- C6: for every request that `handleRequest` proxies, the outbound target
URL is `origin + rewriteURLPath(path)`, followed by `"?" + rawQuery` when the
raw query is not empty, where the origin is `https://api.openai.com` for a
path beginning with `/o`, `https://api.cloudflare.com` for one beginning
with `/c`, and `https://` followed by the `X-Target-Host` value for one
beginning with `/p`, which needs the any-site feature enabled and that header
not empty. -/
theorem C6_target_url (env : Env) (w : ResponseWriter) (r : Request) (o : OutReq)
    (ho : o ∈ (handleRequest env w r).sent) :
    ∃ origin q, rewriteURLPath r.path = Except.ok q ∧
      o.url = origin ++ q ++ (if r.rawQuery = [] then [] else '?' :: r.rawQuery) ∧
      (HasPrefix r.path ['/', 'o'] = true ∨ HasPrefix r.path ['/', 'c'] = true ∨
        HasPrefix r.path ['/', 'p'] = true) ∧
      (HasPrefix r.path ['/', 'o'] = true → origin = "https://api.openai.com".toList) ∧
      (HasPrefix r.path ['/', 'c'] = true → origin = "https://api.cloudflare.com".toList) ∧
      (HasPrefix r.path ['/', 'p'] = true →
        env.enableProxyAnySite = true ∧
        Header.Get env.canon r.header "X-Target-Host".toList ≠ [] ∧
        origin = "https://".toList ++ Header.Get env.canon r.header "X-Target-Host".toList) := by
  obtain ⟨origin, hs, hrest⟩ := handleRequest_sent env w r o ho
  obtain ⟨q, hq, rfl⟩ := proxyRequest_sent env w r origin o hs
  refine ⟨origin, q, hq, ?_, hrest⟩
  by_cases hr : r.rawQuery = [] <;> simp [targetURL, hr]

theorem C6_target_url_witness :
    ((handleRequest (sampleEnv [] false) ResponseWriter.fresh
        (sampleRequest "/o/v1/models" "limit=5" [])).sent.map OutReq.url
      = ["https://api.openai.com/v1/models?limit=5".toList]) ∧
    ((handleRequest (sampleEnv [] true) ResponseWriter.fresh
        (sampleRequest "/p/foo" "" [("X-Target-Host".toList, ["example.com".toList])])).sent.map
          OutReq.url
      = ["https://example.com/foo".toList]) ∧
    (∃ origin q, rewriteURLPath "/o/v1/models".toList = Except.ok q ∧
      "https://api.openai.com/v1/models?limit=5".toList =
        origin ++ q ++ (if "limit=5".toList = [] then [] else '?' :: "limit=5".toList) ∧
      (HasPrefix "/o/v1/models".toList ['/', 'o'] = true →
        origin = "https://api.openai.com".toList)) := by
  refine ⟨by decide, by decide, ?_⟩
  obtain ⟨origin, q, h1, h2, -, h3, -⟩ := C6_target_url (sampleEnv [] false) ResponseWriter.fresh
    (sampleRequest "/o/v1/models" "limit=5" [])
    ⟨"GET".toList, "https://api.openai.com/v1/models?limit=5".toList, [], []⟩ (by decide)
  exact ⟨origin, q, h1, h2, h3⟩

/-- C7, as stated, fails: the path `/o/a?` (sent as `/o/a%3F`) with an empty
raw query is proxied to `https://api.openai.com/a?`, a target URL that ends in
`?`. -/
theorem C7_counterexample :
    (proxyRequest (sampleEnv [] false) ResponseWriter.fresh (sampleRequest "/o/a?" "" [])
        "https://api.openai.com".toList).sent.map OutReq.url
      = ["https://api.openai.com/a?".toList] ∧
    (sampleRequest "/o/a?" "" []).rawQuery = [] ∧
    "https://api.openai.com/a?".toList.getLast? = some '?' := by
  decide

/-- C7, amended: for every proxied request, when the raw query `s` is not
empty the target URL is `origin + rewritten path + "?" + s`, so it ends with
`"?" + s`, `s` unchanged; when `s` is empty the target URL is exactly
`origin + rewritten path`, nothing appended, so it ends in `?` only when the
rewritten path itself does. -/
theorem C7_query_appended_verbatim (env : Env) (w : ResponseWriter) (r : Request)
    (target : Str) (o : OutReq) (ho : o ∈ (proxyRequest env w r target).sent) :
    ∃ q, rewriteURLPath r.path = Except.ok q ∧
      (r.rawQuery ≠ [] →
        o.url = target ++ q ++ '?' :: r.rawQuery ∧ ('?' :: r.rawQuery) <:+ o.url) ∧
      (r.rawQuery = [] →
        o.url = target ++ q ∧ (o.url.getLast? = some '?' ↔ q.getLast? = some '?')) := by
  obtain ⟨q, hq, rfl⟩ := proxyRequest_sent env w r target o ho
  refine ⟨q, hq, ?_, ?_⟩
  · intro hr
    simp only [targetURL, hr, ne_eq, not_false_eq_true, if_true]
    exact ⟨trivial, List.suffix_append _ _⟩
  · intro hr
    obtain ⟨a, b, t, -, hq2⟩ := rewriteURLPath_ok_inv r.path q hq
    have hne : q ≠ [] := by rw [hq2]; simp
    simp only [targetURL, hr, ne_eq, not_true_eq_false, if_false, true_and]
    rw [List.getLast?_append_of_ne_nil _ hne]

theorem C7_query_appended_verbatim_witness :
    ∃ q, rewriteURLPath "/o/v1/models".toList = Except.ok q ∧
      ("limit=5".toList ≠ [] →
        "https://api.openai.com/v1/models?limit=5".toList =
            "https://api.openai.com".toList ++ q ++ '?' :: "limit=5".toList ∧
          ('?' :: "limit=5".toList) <:+ "https://api.openai.com/v1/models?limit=5".toList) := by
  obtain ⟨q, h1, h2, -⟩ := C7_query_appended_verbatim (sampleEnv [] false) ResponseWriter.fresh
    (sampleRequest "/o/v1/models" "limit=5" []) "https://api.openai.com".toList
    ⟨"GET".toList, "https://api.openai.com/v1/models?limit=5".toList, [], []⟩ (by decide)
  exact ⟨q, h1, h2⟩

/-! ## The response relay -/

/-- C3, evaluated where the code breaks it: the upstream body is read as `ab`
and then `cd` together with `io.EOF`; every client write succeeds, yet the
client is written `ab` only, not `abcd`: the bytes that arrive with the
end-of-stream error are dropped.  When the same bytes are followed by a
separate zero-byte read at end of stream, the client is written `abcd` in two
writes, each followed by a flush. -/
theorem C3_bytes_with_eof_dropped :
    (sendProxyRequest
        (sampleEnv [⟨"ab".toList, none⟩, ⟨"cd".toList, some ReadErr.EOF⟩] false)
        ResponseWriter.fresh sampleOutReq).events
      = [Event.write "ab".toList true, Event.flush] ∧
    bodyWritten (sendProxyRequest
        (sampleEnv [⟨"ab".toList, none⟩, ⟨"cd".toList, some ReadErr.EOF⟩] false)
        ResponseWriter.fresh sampleOutReq).events
      ≠ "ab".toList ++ "cd".toList ∧
    (sendProxyRequest
        (sampleEnv [⟨"ab".toList, none⟩, ⟨"cd".toList, none⟩, ⟨[], some ReadErr.EOF⟩] false)
        ResponseWriter.fresh sampleOutReq).events
      = [Event.write "ab".toList true, Event.flush, Event.write "cd".toList true,
          Event.flush] := by
  decide

/-- C9, evaluated where the code breaks it: the upstream answers 200 and its
body is read as `ab` and then `cd` together with an error other than end of
stream; every client write succeeds.  The status sent stays 200, yet after the
one relayed chunk the client is still written the line
`Error reading response`: the body is `ab` followed by that line, not `ab`.
When the failing read returns no bytes, the loop returns at once and the
client is written `ab` only. -/
theorem C9_error_line_written_after_status :
    (sendProxyRequest
        (sampleEnv [⟨"ab".toList, none⟩, ⟨"cd".toList, some (ReadErr.other "reset".toList)⟩]
          false)
        ResponseWriter.fresh sampleOutReq).status = some 200 ∧
    (sendProxyRequest
        (sampleEnv [⟨"ab".toList, none⟩, ⟨"cd".toList, some (ReadErr.other "reset".toList)⟩]
          false)
        ResponseWriter.fresh sampleOutReq).events
      = [Event.write "ab".toList true, Event.flush,
          Event.write "Error reading response\n".toList true] ∧
    bodyWritten (sendProxyRequest
        (sampleEnv [⟨"ab".toList, none⟩, ⟨"cd".toList, some (ReadErr.other "reset".toList)⟩]
          false)
        ResponseWriter.fresh sampleOutReq).events
      = "abError reading response\n".toList ∧
    bodyWritten (sendProxyRequest
        (sampleEnv [⟨"ab".toList, none⟩, ⟨"cd".toList, some (ReadErr.other "reset".toList)⟩]
          false)
        ResponseWriter.fresh sampleOutReq).events
      ≠ "ab".toList ∧
    bodyWritten (sendProxyRequest
        (sampleEnv [⟨"ab".toList, none⟩, ⟨[], some (ReadErr.other "reset".toList)⟩] false)
        ResponseWriter.fresh sampleOutReq).events
      = "ab".toList := by
  decide

end TofuProxy
